import Mathlib

/-!
Verification of the core of the `bord` real-time audio passthrough engine
(`crates/bord-engine`): the lock-free SPSC ring transport, the gain effect,
the device selector, and the sample-format denormalization of the render
path.

Modelling conventions.

* `f32` samples are modelled as rationals (`ℚ`): the ring transport only
  copies sample values, so any type with decidable equality is faithful
  there, while the gain/format claims are about exact arithmetic on the
  clamped range where the modelled operations coincide with the intent of
  the floating-point code.
* `usize` values are modelled as `Nat`.  Wherever a `usize` computation can
  wrap (the final `x + 1` of `next_pow2`, the `cap_pow2 - 1` that forms the
  bit mask), the wraparound is written out explicitly as `% 2 ^ 64`
  (release-mode wrapping semantics).
* The ring cursors are modelled as unbounded naturals.  In the source they
  live in `usize` and wrap modulo `2^64`; since every cursor is only ever
  consumed through `&&& mask` with `mask = 2^k - 1` and `2^k ∣ 2^64`, the
  wraparound is unobservable, and the unbounded model makes the occupancy
  `write - read` directly available.
* The two real-time callbacks run on separate threads in the source; the
  acquire/release atomics make any interleaving of complete `push_slice` /
  `pop_into` calls behave like a sequential interleaving, which is what the
  `runOps` operational model quantifies over.
-/

namespace Bord

/-- The six `x |= x >> k` steps of `next_pow2` (lib.rs), which smear the
most significant set bit of `x` downward; the `x |= x >> 32` step is the
`target_pointer_width = "64"` branch. -/
def smear64 (x1 : Nat) : Nat :=
  let x2 := x1 ||| (x1 >>> 1)
  let x3 := x2 ||| (x2 >>> 2)
  let x4 := x3 ||| (x3 >>> 4)
  let x5 := x4 ||| (x4 >>> 8)
  let x6 := x5 ||| (x5 >>> 16)
  x6 ||| (x6 >>> 32)

/-- Translation of `next_pow2` (lib.rs): bit-smearing round-up to the next
power of two on 64-bit `usize`; the trailing `x + 1` is a wrapping `usize`
addition, hence the explicit `% 2 ^ 64`. -/
def next_pow2 (x : Nat) : Nat :=
  if x ≤ 1 then 1
  else (smear64 (x - 1) + 1) % 2 ^ 64

/-- State of the `SpscRingF32` ring transport (lib.rs).  `buf` is the boxed
backing slice, `mask` the power-of-two mask, `write`/`read` the two atomic
cursors.  Cursors are modelled as unbounded naturals (see the module
comment: the `usize` wraparound is erased by `&&& mask` because the mask is
`2^k - 1` with `2^k ∣ 2^64`). -/
structure SpscRingF32 where
  buf : List ℚ
  mask : Nat
  write : Nat
  read : Nat
deriving DecidableEq

/-- Translation of `SpscRingF32::with_capacity`: the backing buffer is
`vec![0.0f32; cap_pow2]` and the mask is the wrapping `usize` subtraction
`cap_pow2 - 1`, written in its `% 2 ^ 64` normal form. -/
def SpscRingF32.with_capacity (cap : Nat) : SpscRingF32 :=
  let cap_pow2 := next_pow2 cap
  { buf := List.replicate cap_pow2 0
    mask := (cap_pow2 + (2 ^ 64 - 1)) % 2 ^ 64
    write := 0
    read := 0 }

/-- Translation of `SpscRingF32::len`: `w.wrapping_sub(r) & self.mask`. -/
def SpscRingF32.len (s : SpscRingF32) (w r : Nat) : Nat :=
  (w - r) &&& s.mask

/-- The producer-side copy loop of `push_slice`: writes each sample at
`buf[wi & mask]` and advances the local write index, returning the final
buffer and index (the value released into the `write` atomic). -/
def writeLoop (mask : Nat) : List ℚ → Nat → List ℚ → List ℚ × Nat
  | buf, wi, [] => (buf, wi)
  | buf, wi, v :: rest => writeLoop mask (buf.set (wi &&& mask) v) (wi + 1) rest

/-- Translation of `SpscRingF32::push_slice`: all-or-nothing producer push.
`free` is `cap - len(w, r) - 1`; on success the slice is copied at
`(w + i) & mask` and the new write cursor `w + data.len()` is published. -/
def SpscRingF32.push_slice (s : SpscRingF32) (data : List ℚ) : Bool × SpscRingF32 :=
  let r := s.read
  let w := s.write
  let cap := s.buf.length
  let free := cap - s.len w r - 1
  if free < data.length then (false, s)
  else
    let fin := writeLoop s.mask s.buf w data
    (true, { s with buf := fin.1, write := fin.2 })

/-- The consumer-side copy loop of `pop_into`: reads `buf[ri & mask]` for
each slot of `out`, advancing the local read index. -/
def readLoop (buf : List ℚ) (mask : Nat) : Nat → List ℚ → List ℚ
  | _, [] => []
  | ri, _ :: rest => buf.getD (ri &&& mask) 0 :: readLoop buf mask (ri + 1) rest

/-- Translation of `SpscRingF32::pop_into`: pops exactly `out.len()` samples
into `out` when `len(w, r)` suffices, publishing the advanced read cursor
`r + out.len()` (the final value of the source's `ri`); otherwise fails and
leaves both the state and `out` untouched.  The returned list is the
contents of `out` after the call. -/
def SpscRingF32.pop_into (s : SpscRingF32) (out : List ℚ) : Bool × SpscRingF32 × List ℚ :=
  let w := s.write
  let r := s.read
  let avail := s.len w r
  if avail < out.length then (false, s, out)
  else
    (true, { s with read := r + out.length }, readLoop s.buf s.mask r out)

/-- The live (pushed, not yet popped) samples of a ring state, in FIFO
order: the slots from the read cursor up to the write cursor. -/
def liveContents (s : SpscRingF32) : List ℚ :=
  (List.range (s.write - s.read)).map fun i => s.buf.getD ((s.read + i) &&& s.mask) 0

/-- State of the `Gain` effect (dsp/gain.rs): a decibel value and the
derived linear coefficient.  In the source `lin` is `10f32.powf(db / 20.0)`;
here `lin` is an arbitrary rational, so statements quantifying over every
`Gain` cover every decibel setting. -/
structure Gain where
  db : ℚ
  lin : ℚ
deriving DecidableEq

/-- Translation of `Gain::process` (dsp/gain.rs): multiply each sample by
the cached linear coefficient, then hard-clip with
`if x > 1.0 { 1.0 } else if x < -1.0 { -1.0 } else { x }`. -/
def Gain.process (g : Gain) (block : List ℚ) : List ℚ :=
  block.map fun s =>
    let x := s * g.lin
    if x > 1 then 1 else if x < -1 then -1 else x

/-- Rust `f32::clamp(-1.0, 1.0)`: below the minimum gives the minimum,
above the maximum gives the maximum. -/
def rustClamp (v : ℚ) : ℚ :=
  if v < -1 then -1 else if v > 1 then 1 else v

/-- Truncation toward zero, the rounding a Rust float-to-integer `as` cast
performs on in-range values. -/
def ratTrunc (q : ℚ) : Int :=
  if q < 0 then -⌊-q⌋ else ⌊q⌋

/-- Rust `as i16` on an `f32`: truncate toward zero, saturating at the
`i16` bounds. -/
def rustCastI16 (q : ℚ) : Int :=
  max (-32768) (min 32767 (ratTrunc q))

/-- Rust `as u16` on an `f32`: truncate toward zero, saturating at the
`u16` bounds. -/
def rustCastU16 (q : ℚ) : Int :=
  max 0 (min 65535 (ratTrunc q))

/-- The f32 render path emits the popped sample unchanged (the output
callback writes the ring samples straight into the device block). -/
def denormF32 (v : ℚ) : ℚ := v

/-- Per-sample conversion of the i16 render callback (lib.rs):
`(v.clamp(-1.0, 1.0) * 32767.0) as i16`. -/
def denormI16 (v : ℚ) : Int :=
  rustCastI16 (rustClamp v * 32767)

/-- Per-sample conversion of the u16 render callback (lib.rs):
`(((v.clamp(-1.0, 1.0) + 1.0) * 0.5) * 65535.0) as u16`. -/
def denormU16 (v : ℚ) : Int :=
  rustCastU16 ((rustClamp v + 1) * (1 / 2) * 65535)

/-- Round half away from zero — Rust's `f32::round`.  This is the
conversion the specification's denormalization table states
(`round(clamped * 32767.0)`); it is defined here only to compare against
the `as`-cast truncation the code actually performs. -/
def roundHalfAway (q : ℚ) : Int :=
  if q < 0 then -⌊-q + 1 / 2⌋ else ⌊q + 1 / 2⌋

/-- The f32 output callback body (lib.rs, `Engine::start`): pop directly
into the device block; on failure `out.fill(0.0)`.  Takes the block's
pre-call contents and returns the ring state and block contents after the
callback. -/
def renderF32 (ring : SpscRingF32) (out : List ℚ) : SpscRingF32 × List ℚ :=
  let step := ring.pop_into out
  if step.1 then (step.2.1, step.2.2)
  else (step.2.1, List.replicate out.length 0)

/-- The i16 output callback body (lib.rs, `Engine::start`): builds
`vec![0.0f32; out.len()]` — a heap allocation whenever the block is
nonempty, counted by the second component — pops into it, and converts
sample-wise with `as i16`; on failure `out.fill(0)`. -/
def renderI16 (ring : SpscRingF32) (outLen : Nat) : (SpscRingF32 × List Int) × Nat :=
  let heapAllocs := if outLen = 0 then 0 else 1
  let tmp := List.replicate outLen (0 : ℚ)
  let step := ring.pop_into tmp
  if step.1 then ((step.2.1, step.2.2.map denormI16), heapAllocs)
  else ((step.2.1, List.replicate outLen 0), heapAllocs)

/-- The u16 output callback body (lib.rs, `Engine::start`): same shape as
the i16 one — `vec![0.0f32; out.len()]` heap allocation, pop, `as u16`
conversion — with `out.fill(32768)` on failure. -/
def renderU16 (ring : SpscRingF32) (outLen : Nat) : (SpscRingF32 × List Int) × Nat :=
  let heapAllocs := if outLen = 0 then 0 else 1
  let tmp := List.replicate outLen (0 : ℚ)
  let step := ring.pop_into tmp
  if step.1 then ((step.2.1, step.2.2.map denormU16), heapAllocs)
  else ((step.2.1, List.replicate outLen 32768), heapAllocs)

/-- An audio device as `pick_device` (lib.rs) observes it: its name and
whether `supported_input_configs()` / `supported_output_configs()`
succeed. -/
structure Device where
  name : String
  hasInput : Bool
  hasOutput : Bool
deriving DecidableEq

/-- The audio host as `pick_device` observes it: the enumeration order of
`host.devices()` plus the subsystem default input/output devices. -/
structure Host where
  devices : List Device
  defaultInput : Option Device
  defaultOutput : Option Device
deriving DecidableEq

/-- The capability filter of `pick_device`: input capability when an input
device is wanted, output capability otherwise. -/
def deviceOk (want_input : Bool) (d : Device) : Bool :=
  if want_input then d.hasInput else d.hasOutput

/-- Whether the first character list starts the second (`str` prefix test
over chars). -/
def listStarts : List Char → List Char → Bool
  | [], _ => true
  | _ :: _, [] => false
  | a :: as, b :: bs => a == b && listStarts as bs

/-- Whether the first character list occurs contiguously inside the second
— Rust's `str::contains` for literal patterns. -/
def listContains (q : List Char) : List Char → Bool
  | [] => q.isEmpty
  | c :: rest => listStarts q (c :: rest) || listContains q rest

/-- Rust `str::contains`: substring occurrence. -/
def strContains (hay q : String) : Bool :=
  listContains q.data hay.data

/-- The `normalize` closure of `pick_device`: `to_lowercase`, modelled
character-wise. -/
def normalize (s : String) : String :=
  ⟨s.data.map Char.toLower⟩

/-- The index loop of `pick_device`: walk the enumeration, counting only
capability-filtered devices, and return the one whose running count equals
the requested index.  (The source keeps a rising counter `i` compared to
`idx`; decrementing the sought index per capable device is the same
walk.) -/
def pickByIndex (want_input : Bool) : Nat → List Device → Option Device
  | _, [] => none
  | idx, d :: rest =>
    if deviceOk want_input d then
      if idx = 0 then some d else pickByIndex want_input (idx - 1) rest
    else pickByIndex want_input idx rest

/-- The substring loop of `pick_device`: first device whose normalized name
contains the normalized query and which passes the capability filter
(devices whose name matches but which lack the capability are skipped). -/
def pickByName (want_input : Bool) (qn : String) : List Device → Option Device
  | [] => none
  | d :: rest =>
    if strContains (normalize d.name) qn && deviceOk want_input d then some d
    else pickByName want_input qn rest

/-- Translation of `pick_device` (lib.rs): try the explicit index first
(falling through if it matches nothing), then the case-insensitive name
substring, then the subsystem default. -/
def pick_device (host : Host) (want_input : Bool)
    (name_substr : Option String) (index : Option Nat) : Option Device :=
  let fromIndex :=
    match index with
    | some idx => pickByIndex want_input idx host.devices
    | none => none
  match fromIndex with
  | some d => some d
  | none =>
    let fromName :=
      match name_substr with
      | some q => pickByName want_input (normalize q) host.devices
      | none => none
    match fromName with
    | some d => some d
    | none => if want_input then host.defaultInput else host.defaultOutput

/-- One call of the single producer (`push_slice` of a block) or of the
single consumer (`pop_into` of a block of the given size). -/
inductive RingOp where
  | push : List ℚ → RingOp
  | pop : Nat → RingOp
deriving DecidableEq

/-- Sequential interleaving semantics of a producer/consumer call sequence,
returning the final ring state, the concatenation of all successfully
pushed samples, and the concatenation of all successfully popped samples. -/
def runOps : SpscRingF32 → List RingOp → SpscRingF32 × List ℚ × List ℚ
  | s, [] => (s, [], [])
  | s, RingOp.push data :: rest =>
    let step := s.push_slice data
    let next := runOps step.2 rest
    (next.1, (if step.1 then data else []) ++ next.2.1, next.2.2)
  | s, RingOp.pop n :: rest =>
    let step := s.pop_into (List.replicate n 0)
    let next := runOps step.2.1 rest
    (next.1, next.2.1, (if step.1 then step.2.2 else []) ++ next.2.2)

/-- The structural invariant of a well-formed ring state: the backing
buffer is a power of two long, the mask is the buffer length minus one,
and the occupancy `write - read` never exceeds `mask` (at most `C - 1`
live samples). -/
def RingInv (s : SpscRingF32) : Prop :=
  (∃ k, s.buf.length = 2 ^ k) ∧ s.buf.length = s.mask + 1 ∧
    s.read ≤ s.write ∧ s.write - s.read ≤ s.mask

/- ## Round-up to the next power of two -/

theorem smearStep {x a c : Nat} (hc : 0 < c)
    (h : ∀ j, a.testBit j = true ↔ ∃ d, d < c ∧ x.testBit (j + d) = true) :
    ∀ j, (a ||| (a >>> c)).testBit j = true ↔
      ∃ d, d < 2 * c ∧ x.testBit (j + d) = true := by
  intro j
  rw [Nat.testBit_lor, Bool.or_eq_true, Nat.testBit_shiftRight, h j, h (c + j)]
  constructor
  · rintro (⟨d, hd, hbit⟩ | ⟨d, hd, hbit⟩)
    · exact ⟨d, by omega, hbit⟩
    · exact ⟨c + d, by omega, by rwa [show j + (c + d) = c + j + d by omega]⟩
  · rintro ⟨d, hd, hbit⟩
    by_cases hdc : d < c
    · exact Or.inl ⟨d, hdc, hbit⟩
    · exact Or.inr ⟨d - c, by omega, by rwa [show c + j + (d - c) = j + d by omega]⟩

theorem smear64_testBit (x : Nat) :
    ∀ j, (smear64 x).testBit j = true ↔ ∃ d, d < 64 ∧ x.testBit (j + d) = true := by
  have h1 : ∀ j, x.testBit j = true ↔ ∃ d, d < 1 ∧ x.testBit (j + d) = true := by
    intro j
    constructor
    · intro h; exact ⟨0, by omega, by simpa using h⟩
    · rintro ⟨d, hd, hbit⟩; interval_cases d; simpa using hbit
  have h2 := smearStep (by omega) h1
  have h4 := smearStep (by omega) h2
  have h8 := smearStep (by omega) h4
  have h16 := smearStep (by omega) h8
  have h32 := smearStep (by omega) h16
  have h64 := smearStep (by omega) h32
  simpa [smear64] using h64

theorem testBit_log2_self {x : Nat} (hx : x ≠ 0) : x.testBit x.log2 = true := by
  have hle : 2 ^ x.log2 ≤ x := Nat.log2_self_le hx
  have hlt : x < 2 ^ (x.log2 + 1) := Nat.lt_log2_self
  have hpos : 0 < 2 ^ x.log2 := Nat.pos_pow_of_pos _ (by omega)
  have h1 : 1 ≤ x / 2 ^ x.log2 := (Nat.one_le_div_iff hpos).mpr hle
  have h2 : x / 2 ^ x.log2 < 2 := by
    rw [Nat.div_lt_iff_lt_mul hpos]
    calc x < 2 ^ (x.log2 + 1) := hlt
    _ = 2 * 2 ^ x.log2 := by ring
  have : x / 2 ^ x.log2 = 1 := by omega
  rw [Nat.testBit_to_div_mod, this]
  decide

theorem smear64_eq {x : Nat} (h1 : 1 ≤ x) (h63 : x < 2 ^ 63) :
    smear64 x = 2 ^ (x.log2 + 1) - 1 := by
  have hlog : x.log2 < 63 := by
    rw [Nat.log2_lt (by omega)]; exact h63
  apply Nat.eq_of_testBit_eq
  intro i
  rw [Nat.testBit_two_pow_sub_one]
  by_cases hi : i < x.log2 + 1
  · have : (smear64 x).testBit i = true := by
      rw [smear64_testBit]
      refine ⟨x.log2 - i, by omega, ?_⟩
      rw [show i + (x.log2 - i) = x.log2 by omega]
      exact testBit_log2_self (by omega)
    simp [this, hi]
  · have : ¬ (smear64 x).testBit i = true := by
      rw [smear64_testBit]
      rintro ⟨d, hd, hbit⟩
      have hfalse : x.testBit (i + d) = false := by
        apply Nat.testBit_eq_false_of_lt
        calc x < 2 ^ (x.log2 + 1) := Nat.lt_log2_self
        _ ≤ 2 ^ (i + d) := Nat.pow_le_pow_right (by omega) (by omega)
      rw [hfalse] at hbit
      exact Bool.false_ne_true hbit
    simp only [Bool.not_eq_true] at this
    simp [this, hi]

theorem next_pow2_eq_pow {n : Nat} (h2 : 2 ≤ n) (h63 : n ≤ 2 ^ 63) :
    next_pow2 n = 2 ^ (Nat.log2 (n - 1) + 1) := by
  have hx1 : 1 ≤ n - 1 := by omega
  have hx63 : n - 1 < 2 ^ 63 := by
    have : (2:Nat) ^ 63 = 9223372036854775808 := by norm_num
    omega
  have hlog : (n - 1).log2 < 63 := by rw [Nat.log2_lt (by omega)]; exact hx63
  rw [next_pow2, if_neg (by omega), smear64_eq hx1 hx63,
    Nat.sub_add_cancel Nat.one_le_two_pow]
  exact Nat.mod_eq_of_lt (Nat.pow_lt_pow_right (by omega) (by omega))

theorem next_pow2_le_one {n : Nat} (h : n ≤ 1) : next_pow2 n = 1 := by
  rw [next_pow2, if_pos h]

theorem next_pow2_pow {n : Nat} (h63 : n ≤ 2 ^ 63) :
    ∃ k, k ≤ 63 ∧ next_pow2 n = 2 ^ k := by
  by_cases h2 : 2 ≤ n
  · have hlog : (n - 1).log2 < 63 := by
      rw [Nat.log2_lt (by omega)]
      have : (2:Nat) ^ 63 = 9223372036854775808 := by norm_num
      omega
    exact ⟨(n - 1).log2 + 1, by omega, next_pow2_eq_pow h2 h63⟩
  · exact ⟨0, by omega, by rw [next_pow2_le_one (by omega)]; rfl⟩

theorem le_next_pow2 {n : Nat} (h63 : n ≤ 2 ^ 63) : n ≤ next_pow2 n := by
  by_cases h2 : 2 ≤ n
  · rw [next_pow2_eq_pow h2 h63]
    have : n - 1 < 2 ^ ((n - 1).log2 + 1) := Nat.lt_log2_self
    omega
  · rw [next_pow2_le_one (by omega)]; omega

theorem next_pow2_min {n k : Nat} (h2 : 2 ≤ n) (h63 : n ≤ 2 ^ 63) (h : n ≤ 2 ^ k) :
    next_pow2 n ≤ 2 ^ k := by
  rw [next_pow2_eq_pow h2 h63]
  apply Nat.pow_le_pow_right (by omega)
  have : (n - 1).log2 < k := by
    rw [Nat.log2_lt (by omega)]; omega
  omega


theorem land_mask {mask k : Nat} (hk : mask + 1 = 2 ^ k) (x : Nat) :
    x &&& mask = x % (mask + 1) := by
  have h1 : (1:Nat) ≤ 2 ^ k := Nat.one_le_two_pow
  have hm : mask = 2 ^ k - 1 := by omega
  subst hm
  rw [Nat.and_pow_two_sub_one_eq_mod, Nat.sub_add_cancel h1]

theorem mod_inj_of_lt {C a b : Nat} (ha : a < C) (hb : b < C) (h : a % C = b % C) :
    a = b := by
  rwa [Nat.mod_eq_of_lt ha, Nat.mod_eq_of_lt hb] at h

theorem add_mod_cancel_left {C r a b : Nat} (h : (r + a) % C = (r + b) % C) :
    a % C = b % C :=
  Nat.ModEq.add_left_cancel' r h

theorem getD_set_ne {l : List ℚ} {i q : Nat} (h : i ≠ q) (a : ℚ) :
    (l.set i a).getD q 0 = l.getD q 0 := by
  rw [List.getD_eq_getElem?_getD, List.getD_eq_getElem?_getD, List.getElem?_set_ne h]

theorem getD_set_self {l : List ℚ} {i : Nat} (h : i < l.length) (a : ℚ) :
    (l.set i a).getD i 0 = a := by
  rw [List.getD_eq_getElem?_getD, List.getElem?_set_self h]
  rfl

theorem getD_eq_getElem' {l : List ℚ} {i : Nat} (h : i < l.length) : l.getD i 0 = l[i] := by
  rw [List.getD_eq_getElem?_getD, List.getElem?_eq_getElem h]
  rfl

theorem writeLoop_snd (mask : Nat) (data : List ℚ) : ∀ (buf : List ℚ) (wi : Nat),
    (writeLoop mask buf wi data).2 = wi + data.length := by
  induction data with
  | nil => intro buf wi; rfl
  | cons v rest ih =>
    intro buf wi
    simp only [writeLoop, ih, List.length_cons]
    omega

theorem writeLoop_length (mask : Nat) (data : List ℚ) : ∀ (buf : List ℚ) (wi : Nat),
    (writeLoop mask buf wi data).1.length = buf.length := by
  induction data with
  | nil => intro buf wi; rfl
  | cons v rest ih =>
    intro buf wi
    simp only [writeLoop, ih, List.length_set]

theorem writeLoop_getD_outside {mask k : Nat} (hk : mask + 1 = 2 ^ k) (data : List ℚ) :
    ∀ (buf : List ℚ) (wi q : Nat),
      (∀ j, j < data.length → q ≠ (wi + j) % (mask + 1)) →
      (writeLoop mask buf wi data).1.getD q 0 = buf.getD q 0 := by
  induction data with
  | nil => intro buf wi q _; rfl
  | cons v rest ih =>
    intro buf wi q hq
    simp only [writeLoop]
    rw [ih (buf.set (wi &&& mask) v) (wi + 1) q fun j hj => by
      have := hq (j + 1) (by simp only [List.length_cons]; omega)
      rwa [show wi + (j + 1) = wi + 1 + j by omega] at this]
    rw [land_mask hk]
    exact getD_set_ne (fun heq => hq 0 (by simp) (by rw [Nat.add_zero, ← heq])) v

theorem writeLoop_getD_inside {mask k : Nat} (hk : mask + 1 = 2 ^ k) (data : List ℚ) :
    ∀ (buf : List ℚ) (wi : Nat), buf.length = mask + 1 → data.length ≤ mask + 1 →
      ∀ j, j < data.length →
      (writeLoop mask buf wi data).1.getD ((wi + j) % (mask + 1)) 0 = data.getD j 0 := by
  induction data with
  | nil => intro buf wi _ _ j hj; simp at hj
  | cons v rest ih =>
    intro buf wi hlen hle j hj
    simp only [writeLoop]
    cases j with
    | zero =>
      have hcond : ∀ j', j' < rest.length → (wi + 0) % (mask + 1) ≠ (wi + 1 + j') % (mask + 1) := by
        intro j' hj' heq
        rw [show wi + 1 + j' = wi + (1 + j') by omega] at heq
        have h2 := add_mod_cancel_left heq
        have hlt : 1 + j' < mask + 1 := by
          simp only [List.length_cons] at hle
          omega
        rw [Nat.zero_mod, Nat.mod_eq_of_lt hlt] at h2
        omega
      rw [writeLoop_getD_outside hk rest _ (wi + 1) _ hcond, Nat.add_zero, land_mask hk]
      simp only [List.getD_cons_zero]
      exact getD_set_self (by rw [hlen]; exact Nat.mod_lt _ (by omega)) v
    | succ j' =>
      have := ih (buf.set (wi &&& mask) v) (wi + 1)
        (by rw [List.length_set]; exact hlen)
        (by simp only [List.length_cons] at hle; omega)
        j' (by simp only [List.length_cons] at hj; omega)
      rw [show wi + (j' + 1) = wi + 1 + j' by omega]
      simpa using this

theorem readLoop_length (buf : List ℚ) (mask : Nat) (out : List ℚ) : ∀ ri : Nat,
    (readLoop buf mask ri out).length = out.length := by
  induction out with
  | nil => intro ri; rfl
  | cons v rest ih =>
    intro ri
    simp only [readLoop, List.length_cons, ih]

theorem readLoop_getD (buf : List ℚ) (mask : Nat) (out : List ℚ) : ∀ (ri i : Nat),
    i < out.length →
    (readLoop buf mask ri out).getD i 0 = buf.getD ((ri + i) &&& mask) 0 := by
  induction out with
  | nil => intro ri i h; simp at h
  | cons v rest ih =>
    intro ri i h
    cases i with
    | zero => simp [readLoop]
    | succ i' =>
      simp only [readLoop, List.getD_cons_succ]
      rw [ih (ri + 1) i' (by simp only [List.length_cons] at h; omega)]
      rw [show ri + 1 + i' = ri + (i' + 1) by omega]

theorem liveContents_length (s : SpscRingF32) :
    (liveContents s).length = s.write - s.read := by
  simp [liveContents]

theorem liveContents_getD (s : SpscRingF32) (i : Nat) (h : i < s.write - s.read) :
    (liveContents s).getD i 0 = s.buf.getD ((s.read + i) &&& s.mask) 0 := by
  rw [getD_eq_getElem' (by rw [liveContents_length]; exact h)]
  simp only [liveContents, List.getElem_map, List.getElem_range]


theorem len_eq {s : SpscRingF32} (hinv : RingInv s) :
    s.len s.write s.read = s.write - s.read := by
  obtain ⟨⟨k, hk⟩, hlen, hrw, hocc⟩ := hinv
  rw [SpscRingF32.len, land_mask (show s.mask + 1 = 2 ^ k by rw [← hlen]; exact hk) _]
  exact Nat.mod_eq_of_lt (by omega)

theorem push_slice_success {s : SpscRingF32} {data : List ℚ} (hinv : RingInv s)
    (hfree : data.length ≤ s.mask - (s.write - s.read)) :
    (s.push_slice data).1 = true ∧
    (s.push_slice data).2.buf.length = s.buf.length ∧
    (s.push_slice data).2.mask = s.mask ∧
    (s.push_slice data).2.read = s.read ∧
    (s.push_slice data).2.write = s.write + data.length ∧
    liveContents (s.push_slice data).2 = liveContents s ++ data := by
  obtain ⟨⟨k, hk⟩, hlen, hrw, hocc⟩ := hinv
  have hC : s.mask + 1 = 2 ^ k := by rw [← hlen]; exact hk
  have hlenq : s.len s.write s.read = s.write - s.read :=
    len_eq ⟨⟨k, hk⟩, hlen, hrw, hocc⟩
  have hcond : ¬ (s.buf.length - s.len s.write s.read - 1 < data.length) := by
    rw [hlenq]; omega
  have hres : s.push_slice data =
      (true, { s with buf := (writeLoop s.mask s.buf s.write data).1, write := (writeLoop s.mask s.buf s.write data).2 }) := by
    simp only [SpscRingF32.push_slice]
    rw [if_neg hcond]
  rw [hres]
  refine ⟨rfl, writeLoop_length _ _ _ _, rfl, rfl, writeLoop_snd _ _ _ _, ?_⟩
  apply List.ext_getElem
  · simp only [liveContents_length, List.length_append, writeLoop_snd]
    omega
  intro i hi1 hi2
  have hilt : i < (s.write - s.read) + data.length := by
    simp only [liveContents_length, writeLoop_snd] at hi1
    omega
  rw [← getD_eq_getElem' hi1, ← getD_eq_getElem' hi2]
  rw [liveContents_getD _ i (by dsimp only; rw [writeLoop_snd]; omega)]
  dsimp only
  by_cases hcase : i < s.write - s.read
  · have houtside : ∀ j, j < data.length →
        (s.read + i) % (s.mask + 1) ≠ (s.write + j) % (s.mask + 1) := by
      intro j hj heq
      have hw : s.write = s.read + (s.write - s.read) := by omega
      rw [hw, Nat.add_assoc] at heq
      have h2 := add_mod_cancel_left heq
      have h3 : i = s.write - s.read + j :=
        mod_inj_of_lt (by omega) (by omega) h2
      omega
    rw [land_mask hC]
    rw [writeLoop_getD_outside hC data s.buf s.write _ houtside]
    have hlt : i < (liveContents s).length := by rw [liveContents_length]; omega
    conv_rhs => rw [List.getD_eq_getElem?_getD, List.getElem?_append_left hlt,
      ← List.getD_eq_getElem?_getD]
    rw [liveContents_getD s i hcase, land_mask hC]
  · have hj : i - (s.write - s.read) < data.length := by omega
    have hpos : s.read + i = s.write + (i - (s.write - s.read)) := by omega
    rw [land_mask hC, hpos,
      writeLoop_getD_inside hC data s.buf s.write (by omega) (by omega) _ hj]
    have hge : (liveContents s).length ≤ i := by rw [liveContents_length]; omega
    conv_rhs => rw [List.getD_eq_getElem?_getD, List.getElem?_append_right hge,
      ← List.getD_eq_getElem?_getD]
    rw [liveContents_length]

theorem pop_into_success {s : SpscRingF32} {out : List ℚ} (hinv : RingInv s)
    (havail : out.length ≤ s.write - s.read) :
    (s.pop_into out).1 = true ∧
    (s.pop_into out).2.1 = { s with read := s.read + out.length } ∧
    (s.pop_into out).2.2 = (liveContents s).take out.length ∧
    liveContents (s.pop_into out).2.1 = (liveContents s).drop out.length := by
  obtain ⟨⟨k, hk⟩, hlen, hrw, hocc⟩ := hinv
  have hC : s.mask + 1 = 2 ^ k := by rw [← hlen]; exact hk
  have hlenq : s.len s.write s.read = s.write - s.read :=
    len_eq ⟨⟨k, hk⟩, hlen, hrw, hocc⟩
  have hcond : ¬ (s.len s.write s.read < out.length) := by rw [hlenq]; omega
  have hres : s.pop_into out =
      (true, { s with read := s.read + out.length },
        readLoop s.buf s.mask s.read out) := by
    simp only [SpscRingF32.pop_into]
    rw [if_neg hcond]
  rw [hres]
  dsimp only
  refine ⟨rfl, rfl, ?_, ?_⟩
  · apply List.ext_getElem
    · rw [readLoop_length, List.length_take, liveContents_length]
      omega
    intro i hi1 hi2
    have hi : i < out.length := by rw [readLoop_length] at hi1; exact hi1
    have hlive_i : i < (liveContents s).length := by rw [liveContents_length]; omega
    rw [List.getElem_take, ← getD_eq_getElem' hi1, ← getD_eq_getElem' hlive_i,
      readLoop_getD s.buf s.mask out s.read i hi, liveContents_getD s i (by omega)]
  · apply List.ext_getElem
    · rw [liveContents_length, List.length_drop, liveContents_length]
      dsimp only
      omega
    intro i hi1 hi2
    have h1 : i < s.write - (s.read + out.length) := by
      rw [liveContents_length] at hi1
      dsimp only at hi1
      omega
    have h2 : out.length + i < (liveContents s).length := by
      rw [liveContents_length]; omega
    rw [List.getElem_drop, ← getD_eq_getElem' hi1, ← getD_eq_getElem' h2,
      liveContents_getD _ i (by dsimp only; omega),
      liveContents_getD s (out.length + i) (by omega)]
    dsimp only
    rw [show s.read + out.length + i = s.read + (out.length + i) by omega]


theorem push_slice_fail {s : SpscRingF32} {data : List ℚ}
    (h : s.buf.length - s.len s.write s.read - 1 < data.length) :
    s.push_slice data = (false, s) := by
  simp only [SpscRingF32.push_slice]
  rw [if_pos h]

theorem pop_into_fail {s : SpscRingF32} {out : List ℚ}
    (h : s.len s.write s.read < out.length) :
    s.pop_into out = (false, s, out) := by
  simp only [SpscRingF32.pop_into]
  rw [if_pos h]

theorem ringInv_push {s : SpscRingF32} {data : List ℚ} (hinv : RingInv s)
    (hfree : data.length ≤ s.mask - (s.write - s.read)) :
    RingInv (s.push_slice data).2 := by
  obtain ⟨_, hlen2, hmask2, hread2, hwrite2, _⟩ := push_slice_success hinv hfree
  obtain ⟨⟨k, hk⟩, hlen, hrw, hocc⟩ := hinv
  refine ⟨⟨k, by rw [hlen2]; exact hk⟩, by rw [hlen2, hmask2]; exact hlen, ?_, ?_⟩
  · rw [hread2, hwrite2]; omega
  · rw [hread2, hwrite2, hmask2]; omega

theorem ringInv_pop {s : SpscRingF32} {out : List ℚ} (hinv : RingInv s)
    (havail : out.length ≤ s.write - s.read) :
    RingInv (s.pop_into out).2.1 := by
  obtain ⟨_, hstate, _, _⟩ := pop_into_success hinv havail
  obtain ⟨⟨k, hk⟩, hlen, hrw, hocc⟩ := hinv
  rw [hstate]
  exact ⟨⟨k, hk⟩, hlen, by dsimp only; omega, by dsimp only; omega⟩

theorem runOps_spec (ops : List RingOp) : ∀ (s : SpscRingF32), RingInv s →
    RingInv (runOps s ops).1 ∧
    (runOps s ops).2.2 ++ liveContents (runOps s ops).1 =
      liveContents s ++ (runOps s ops).2.1 := by
  induction ops with
  | nil =>
    intro s hinv
    exact ⟨hinv, by simp [runOps]⟩
  | cons op rest ih =>
    intro s hinv
    cases op with
    | push data =>
      by_cases hc : s.buf.length - s.len s.write s.read - 1 < data.length
      · have hfail := push_slice_fail hc
        simp only [runOps, hfail]
        obtain ⟨ih1, ih2⟩ := ih s hinv
        exact ⟨ih1, by simpa using ih2⟩
      · have hlenq := len_eq hinv
        have hlen := hinv.2.1
        have hfree : data.length ≤ s.mask - (s.write - s.read) := by
          rw [hlenq, hlen] at hc
          omega
        obtain ⟨h1, _, _, _, _, hlive⟩ := push_slice_success hinv hfree
        obtain ⟨ih1, ih2⟩ := ih _ (ringInv_push hinv hfree)
        simp only [runOps]
        refine ⟨ih1, ?_⟩
        rw [h1, if_pos rfl, ih2, hlive, List.append_assoc]
    | pop n =>
      by_cases hc : s.len s.write s.read < n
      · have hfail : s.pop_into (List.replicate n 0) =
            (false, s, List.replicate n 0) :=
          pop_into_fail (by rw [List.length_replicate]; exact hc)
        simp only [runOps, hfail]
        obtain ⟨ih1, ih2⟩ := ih s hinv
        exact ⟨ih1, by simpa using ih2⟩
      · have hlenq := len_eq hinv
        have havail : (List.replicate n (0:ℚ)).length ≤ s.write - s.read := by
          rw [List.length_replicate, ← hlenq]
          omega
        obtain ⟨h1, _, hpopped, hlive⟩ := pop_into_success hinv havail
        obtain ⟨ih1, ih2⟩ := ih _ (ringInv_pop hinv havail)
        simp only [runOps]
        refine ⟨ih1, ?_⟩
        rw [h1, if_pos rfl, hpopped, List.append_assoc, ih2, hlive,
          ← List.append_assoc, List.take_append_drop]

theorem with_capacity_length (n : Nat) :
    (SpscRingF32.with_capacity n).buf.length = next_pow2 n := by
  simp [SpscRingF32.with_capacity]

theorem liveContents_with_capacity (n : Nat) :
    liveContents (SpscRingF32.with_capacity n) = [] := by
  simp [liveContents, SpscRingF32.with_capacity]

theorem ringInv_with_capacity {n : Nat} (h63 : n ≤ 2 ^ 63) :
    RingInv (SpscRingF32.with_capacity n) := by
  obtain ⟨k, hk63, hpow⟩ := next_pow2_pow h63
  have h1 : 1 ≤ next_pow2 n := by rw [hpow]; exact Nat.one_le_two_pow
  have h2 : next_pow2 n ≤ 2 ^ 63 := by
    rw [hpow]; exact Nat.pow_le_pow_right (by omega) hk63
  have hmask : (next_pow2 n + (2 ^ 64 - 1)) % 2 ^ 64 = next_pow2 n - 1 := by
    have e1 : (2:Nat) ^ 64 = 18446744073709551616 := by norm_num
    have e2 : (2:Nat) ^ 63 = 9223372036854775808 := by norm_num
    omega
  refine ⟨⟨k, ?_⟩, ?_, le_refl _, ?_⟩
  · rw [with_capacity_length, hpow]
  · rw [with_capacity_length]
    simp only [SpscRingF32.with_capacity, hmask]
    omega
  · simp [SpscRingF32.with_capacity]


/- ## Helper lemmas for the device selector and the format adapter -/

theorem pickByIndex_eq (wi : Bool) : ∀ (devs : List Device) (idx : Nat),
    pickByIndex wi idx devs = (devs.filter (deviceOk wi))[idx]? := by
  intro devs
  induction devs with
  | nil => intro idx; simp [pickByIndex]
  | cons d rest ih =>
    intro idx
    by_cases hok : deviceOk wi d
    · rw [List.filter_cons_of_pos hok]
      cases idx with
      | zero => simp [pickByIndex, hok]
      | succ i => simp [pickByIndex, hok, ih]
    · rw [List.filter_cons_of_neg hok]
      simp [pickByIndex, hok, ih]

theorem rustClamp_mem (v : ℚ) : -1 ≤ rustClamp v ∧ rustClamp v ≤ 1 := by
  unfold rustClamp
  split_ifs with h1 h2
  · constructor <;> norm_num
  · constructor <;> norm_num
  · constructor <;> linarith

theorem ratTrunc_mem {q : ℚ} {lo hi : ℤ} (hlo : (lo : ℚ) ≤ q) (hhi : q ≤ (hi : ℚ))
    (hlo0 : lo ≤ 0) (hhi0 : 0 ≤ hi) : lo ≤ ratTrunc q ∧ ratTrunc q ≤ hi := by
  unfold ratTrunc
  split_ifs with h
  · have h1 : ⌊-q⌋ ≤ -lo := by
      have : -q ≤ ((-lo : ℤ) : ℚ) := by push_cast; linarith
      calc ⌊-q⌋ ≤ ⌊((-lo : ℤ) : ℚ)⌋ := Int.floor_le_floor this
      _ = -lo := Int.floor_intCast _
    have h2 : 0 ≤ ⌊-q⌋ := Int.floor_nonneg.mpr (by linarith)
    omega
  · have h1 : ⌊q⌋ ≤ hi := by
      calc ⌊q⌋ ≤ ⌊((hi : ℤ) : ℚ)⌋ := Int.floor_le_floor hhi
      _ = hi := Int.floor_intCast _
    have h2 : 0 ≤ ⌊q⌋ := Int.floor_nonneg.mpr (by linarith)
    omega

/- ## The claims -/

/-- C1: FIFO fidelity of the ring transport.  For every finite sequence of
`push_slice`/`pop_into` calls on a freshly constructed ring (one producer,
one consumer, interleaved arbitrarily), the samples delivered by successful
`pop_into` calls, followed by the samples still buffered, equal — in order —
the concatenation of the samples delivered by successful `push_slice`
calls: pops are an in-order prefix of pushes, with no reordering or loss of
accepted samples. -/
theorem fifo_fidelity_C1 (n : Nat) (h63 : n ≤ 2 ^ 63) (ops : List RingOp) :
    (runOps (SpscRingF32.with_capacity n) ops).2.2 ++
      liveContents (runOps (SpscRingF32.with_capacity n) ops).1 =
      (runOps (SpscRingF32.with_capacity n) ops).2.1 := by
  have h := (runOps_spec ops _ (ringInv_with_capacity h63)).2
  rwa [liveContents_with_capacity, List.nil_append] at h

/-- Witness for C1 at a concrete run: push `[1, 2, 3]`, pop 2 — the pops
deliver `[1, 2]`, the buffer retains `[3]`, and their concatenation is the
pushed sequence. -/
theorem fifo_fidelity_C1_witness :
    (4 : Nat) ≤ 2 ^ 63 ∧
    (runOps (SpscRingF32.with_capacity 4)
      [RingOp.push [1, 2, 3], RingOp.pop 2]).2.2 = [1, 2] ∧
    liveContents (runOps (SpscRingF32.with_capacity 4)
      [RingOp.push [1, 2, 3], RingOp.pop 2]).1 = [3] ∧
    (runOps (SpscRingF32.with_capacity 4)
      [RingOp.push [1, 2, 3], RingOp.pop 2]).2.2 ++
      liveContents (runOps (SpscRingF32.with_capacity 4)
        [RingOp.push [1, 2, 3], RingOp.pop 2]).1 =
      (runOps (SpscRingF32.with_capacity 4)
        [RingOp.push [1, 2, 3], RingOp.pop 2]).2.1 :=
  ⟨by norm_num, by rfl, by rfl,
    fifo_fidelity_C1 4 (by norm_num) [RingOp.push [1, 2, 3], RingOp.pop 2]⟩

/-- C2: all-or-nothing push.  Whenever `push_slice` is called with a slice
longer than the current free space (`cap - len(w, r) - 1` as the code
computes it), it returns `false` and leaves the whole ring state — backing
buffer, write cursor and read cursor — unchanged; no partial write
occurs. -/
theorem push_all_or_nothing_C2 (s : SpscRingF32) (data : List ℚ)
    (h : s.buf.length - s.len s.write s.read - 1 < data.length) :
    (s.push_slice data).1 = false ∧ (s.push_slice data).2 = s := by
  rw [push_slice_fail h]
  exact ⟨rfl, rfl⟩

/-- Witness for C2: a ring of usable capacity 3 holding `[1, 2]`; pushing
`[7, 8]` overflows, fails, and leaves the state unchanged, after which a
pop still reads back `[1, 2]`. -/
theorem push_all_or_nothing_C2_witness :
    ((SpscRingF32.with_capacity 4).push_slice [1, 2]).2.buf.length -
      ((SpscRingF32.with_capacity 4).push_slice [1, 2]).2.len
        ((SpscRingF32.with_capacity 4).push_slice [1, 2]).2.write
        ((SpscRingF32.with_capacity 4).push_slice [1, 2]).2.read - 1 <
      ([7, 8] : List ℚ).length ∧
    ((((SpscRingF32.with_capacity 4).push_slice [1, 2]).2.push_slice [7, 8]).1 = false ∧
      (((SpscRingF32.with_capacity 4).push_slice [1, 2]).2.push_slice [7, 8]).2 =
        ((SpscRingF32.with_capacity 4).push_slice [1, 2]).2) ∧
    ((((SpscRingF32.with_capacity 4).push_slice [1, 2]).2.push_slice [7, 8]).2.pop_into
      [0, 0]).2.2 = [1, 2] :=
  ⟨by decide, push_all_or_nothing_C2 _ [7, 8] (by decide), by rfl⟩
/-- C3: underrun behavior.  Whenever `pop_into` is called with an output
slice longer than the available sample count, it returns `false` and leaves
both the output slice and the ring state (in particular the read cursor)
unchanged; on that failure the render callbacks fill the entire native
block with the silence value — `0.0` for f32, `0` for i16, `32768` for
u16 — never stale data. -/
theorem pop_underrun_silence_C3 (s : SpscRingF32) (out : List ℚ)
    (h : s.len s.write s.read < out.length) :
    s.pop_into out = (false, s, out) ∧
    renderF32 s out = (s, List.replicate out.length 0) ∧
    (renderI16 s out.length).1.2 = List.replicate out.length 0 ∧
    (renderU16 s out.length).1.2 = List.replicate out.length 32768 := by
  have hfail := pop_into_fail h
  have hfail2 : s.pop_into (List.replicate out.length 0) =
      (false, s, List.replicate out.length 0) :=
    pop_into_fail (by rw [List.length_replicate]; exact h)
  refine ⟨hfail, ?_, ?_, ?_⟩
  · simp [renderF32, hfail]
  · simp [renderI16, hfail2]
  · simp [renderU16, hfail2]

/-- Witness for C3: popping one sample from an empty ring fails, leaves the
(stale) output block `[5]` untouched at the transport level, and every
render callback emits its silence value instead. -/
theorem pop_underrun_silence_C3_witness :
    (SpscRingF32.with_capacity 4).len (SpscRingF32.with_capacity 4).write
      (SpscRingF32.with_capacity 4).read < ([5] : List ℚ).length ∧
    ((SpscRingF32.with_capacity 4).pop_into [5] =
        (false, SpscRingF32.with_capacity 4, [5]) ∧
      renderF32 (SpscRingF32.with_capacity 4) [5] =
        (SpscRingF32.with_capacity 4, List.replicate ([5] : List ℚ).length 0) ∧
      (renderI16 (SpscRingF32.with_capacity 4) ([5] : List ℚ).length).1.2 =
        List.replicate ([5] : List ℚ).length 0 ∧
      (renderU16 (SpscRingF32.with_capacity 4) ([5] : List ℚ).length).1.2 =
        List.replicate ([5] : List ℚ).length 32768) :=
  ⟨by decide, pop_underrun_silence_C3 (SpscRingF32.with_capacity 4) [5] (by decide)⟩

/-- C4: ring occupancy invariant.  After every sequence of
`push_slice`/`pop_into` calls on a freshly constructed ring of resolved
power-of-two capacity `C`, the number of live samples lies in `[0, C - 1]`
(`read ≤ write` and `write - read ≤ C - 1`); moreover at any such reachable
state, a successful push never advances the write cursor past
`read + C - 1`, and a successful pop never advances the read cursor past
the write cursor. -/
theorem ring_occupancy_C4 (n : Nat) (h63 : n ≤ 2 ^ 63) (ops : List RingOp) :
    ((runOps (SpscRingF32.with_capacity n) ops).1.read ≤
        (runOps (SpscRingF32.with_capacity n) ops).1.write ∧
      (runOps (SpscRingF32.with_capacity n) ops).1.write -
          (runOps (SpscRingF32.with_capacity n) ops).1.read ≤
        (runOps (SpscRingF32.with_capacity n) ops).1.buf.length - 1) ∧
    (∀ data : List ℚ,
      ((runOps (SpscRingF32.with_capacity n) ops).1.push_slice data).1 = true →
      ((runOps (SpscRingF32.with_capacity n) ops).1.push_slice data).2.write ≤
        (runOps (SpscRingF32.with_capacity n) ops).1.read +
          (runOps (SpscRingF32.with_capacity n) ops).1.buf.length - 1) ∧
    (∀ out : List ℚ,
      ((runOps (SpscRingF32.with_capacity n) ops).1.pop_into out).1 = true →
      ((runOps (SpscRingF32.with_capacity n) ops).1.pop_into out).2.1.read ≤
        (runOps (SpscRingF32.with_capacity n) ops).1.write) := by
  have hinv := (runOps_spec ops _ (ringInv_with_capacity h63)).1
  have hlenq := len_eq hinv
  obtain ⟨⟨k, hk⟩, hlen, hrw, hocc⟩ := hinv
  refine ⟨⟨hrw, by omega⟩, ?_, ?_⟩
  · intro data hsucc
    by_cases hc : (runOps (SpscRingF32.with_capacity n) ops).1.buf.length -
        (runOps (SpscRingF32.with_capacity n) ops).1.len
          (runOps (SpscRingF32.with_capacity n) ops).1.write
          (runOps (SpscRingF32.with_capacity n) ops).1.read - 1 < data.length
    · rw [push_slice_fail hc] at hsucc
      simp at hsucc
    · have hfree : data.length ≤ (runOps (SpscRingF32.with_capacity n) ops).1.mask -
          ((runOps (SpscRingF32.with_capacity n) ops).1.write -
            (runOps (SpscRingF32.with_capacity n) ops).1.read) := by
        rw [hlenq, hlen] at hc
        omega
      obtain ⟨_, _, _, _, hwrite2, _⟩ :=
        push_slice_success ⟨⟨k, hk⟩, hlen, hrw, hocc⟩ hfree
      rw [hwrite2]
      omega
  · intro out hsucc
    by_cases hc : (runOps (SpscRingF32.with_capacity n) ops).1.len
        (runOps (SpscRingF32.with_capacity n) ops).1.write
        (runOps (SpscRingF32.with_capacity n) ops).1.read < out.length
    · rw [pop_into_fail hc] at hsucc
      simp at hsucc
    · have havail : out.length ≤ (runOps (SpscRingF32.with_capacity n) ops).1.write -
          (runOps (SpscRingF32.with_capacity n) ops).1.read := by
        rw [hlenq] at hc
        omega
      obtain ⟨_, hstate, _, _⟩ := pop_into_success ⟨⟨k, hk⟩, hlen, hrw, hocc⟩ havail
      rw [hstate]
      dsimp only
      omega

/-- Witness for C4 after pushing one sample into a capacity-4 ring: the
occupancy bounds hold, a further successful push of `[2]` respects the
write-cursor bound, and a successful pop of one sample respects the
read-cursor bound. -/
theorem ring_occupancy_C4_witness :
    (4 : Nat) ≤ 2 ^ 63 ∧
    ((runOps (SpscRingF32.with_capacity 4) [RingOp.push [1]]).1.read ≤
        (runOps (SpscRingF32.with_capacity 4) [RingOp.push [1]]).1.write ∧
      (runOps (SpscRingF32.with_capacity 4) [RingOp.push [1]]).1.write -
          (runOps (SpscRingF32.with_capacity 4) [RingOp.push [1]]).1.read ≤
        (runOps (SpscRingF32.with_capacity 4) [RingOp.push [1]]).1.buf.length - 1) ∧
    ((runOps (SpscRingF32.with_capacity 4) [RingOp.push [1]]).1.push_slice [2]).1 = true ∧
    ((runOps (SpscRingF32.with_capacity 4) [RingOp.push [1]]).1.push_slice [2]).2.write ≤
      (runOps (SpscRingF32.with_capacity 4) [RingOp.push [1]]).1.read +
        (runOps (SpscRingF32.with_capacity 4) [RingOp.push [1]]).1.buf.length - 1 ∧
    ((runOps (SpscRingF32.with_capacity 4) [RingOp.push [1]]).1.pop_into [0]).1 = true ∧
    ((runOps (SpscRingF32.with_capacity 4) [RingOp.push [1]]).1.pop_into [0]).2.1.read ≤
      (runOps (SpscRingF32.with_capacity 4) [RingOp.push [1]]).1.write :=
  ⟨by norm_num,
    (ring_occupancy_C4 4 (by norm_num) [RingOp.push [1]]).1,
    by rfl,
    (ring_occupancy_C4 4 (by norm_num) [RingOp.push [1]]).2.1 [2] (by rfl),
    by rfl,
    (ring_occupancy_C4 4 (by norm_num) [RingOp.push [1]]).2.2 [0] (by rfl)⟩
/-- C5 counterexample: the claim "for every requested capacity `n ≥ 1` the
backing size is the smallest power of two `≥ n`" fails at `n = 2^63 + 1`:
the 64-bit bit-smear computation wraps, `next_pow2` returns `0`, which is
not `≥ n` (and is no power of two). -/
theorem capacity_resolution_C5_counterexample :
    next_pow2 (2 ^ 63 + 1) = 0 ∧ ¬ (2 ^ 63 + 1 ≤ next_pow2 (2 ^ 63 + 1)) := by
  refine ⟨by rfl, ?_⟩
  intro hle
  rw [show next_pow2 (2 ^ 63 + 1) = 0 from by rfl] at hle
  omega

/-- C5 (amended): for every requested capacity `n` with `1 ≤ n ≤ 2^63`
(beyond which the 64-bit computation wraps to `0`),
`SpscRingF32::with_capacity n` allocates a backing buffer of length
`next_pow2 n`, which is the smallest power of two `≥ n`, and the usable
capacity enforced by `push_slice`'s free-space check on the fresh ring is
exactly that resolved size minus 1. -/
theorem capacity_resolution_C5 (n : Nat) (h1 : 1 ≤ n) (h63 : n ≤ 2 ^ 63) :
    (SpscRingF32.with_capacity n).buf.length = next_pow2 n ∧
    n ≤ next_pow2 n ∧
    (∃ k, next_pow2 n = 2 ^ k) ∧
    (∀ k, n ≤ 2 ^ k → next_pow2 n ≤ 2 ^ k) ∧
    (∀ data : List ℚ,
      (((SpscRingF32.with_capacity n).push_slice data).1 = true ↔
        data.length ≤ next_pow2 n - 1)) := by
  have hinv := ringInv_with_capacity h63
  have hlenq := len_eq hinv
  have hpow := next_pow2_pow h63
  refine ⟨with_capacity_length n, le_next_pow2 h63, ?_, ?_, ?_⟩
  · obtain ⟨k, _, hk⟩ := hpow
    exact ⟨k, hk⟩
  · intro k hk
    by_cases h2 : 2 ≤ n
    · exact next_pow2_min h2 h63 hk
    · rw [next_pow2_le_one (by omega)]
      exact Nat.one_le_two_pow
  · intro data
    have hw : (SpscRingF32.with_capacity n).write = 0 := rfl
    have hr : (SpscRingF32.with_capacity n).read = 0 := rfl
    have hm : (SpscRingF32.with_capacity n).mask + 1 = next_pow2 n := by
      rw [← hinv.2.1, with_capacity_length]
    constructor
    · intro hsucc
      by_contra hgt
      have hc : (SpscRingF32.with_capacity n).buf.length -
          (SpscRingF32.with_capacity n).len (SpscRingF32.with_capacity n).write
            (SpscRingF32.with_capacity n).read - 1 < data.length := by
        rw [hlenq, hw, hr, with_capacity_length]
        omega
      rw [push_slice_fail hc] at hsucc
      simp at hsucc
    · intro hle
      have hfree : data.length ≤ (SpscRingF32.with_capacity n).mask -
          ((SpscRingF32.with_capacity n).write - (SpscRingF32.with_capacity n).read) := by
        rw [hw, hr]
        omega
      exact (push_slice_success hinv hfree).1

/-- Witness for C5 at `n = 100`: the backing size resolves to `128`, is a
power of two at least `100`, and the fresh ring accepts a 127-sample push
(usable capacity `128 - 1`). -/
theorem capacity_resolution_C5_witness :
    (1 ≤ 100 ∧ (100 : Nat) ≤ 2 ^ 63) ∧
    (SpscRingF32.with_capacity 100).buf.length = next_pow2 100 ∧
    next_pow2 100 = 128 ∧
    (100 : Nat) ≤ next_pow2 100 ∧
    ((SpscRingF32.with_capacity 100).push_slice (List.replicate 127 0)).1 = true :=
  ⟨⟨by norm_num, by norm_num⟩,
    (capacity_resolution_C5 100 (by norm_num) (by norm_num)).1,
    by rfl,
    (capacity_resolution_C5 100 (by norm_num) (by norm_num)).2.1,
    ((capacity_resolution_C5 100 (by norm_num) (by norm_num)).2.2.2.2
      (List.replicate 127 0)).mpr (by rw [List.length_replicate]; decide)⟩

/-- C6 counterexample: with devices `["Alpha", "Beta"]` (both capable), a
selector naming `"alpha"` and indexing `1` resolves to `"Beta"` — the
explicit index wins even though a different device matches the name
substring case-insensitively, contradicting the claimed name-over-index
priority. -/
theorem pick_device_C6_counterexample :
    pick_device ⟨[⟨"Alpha", true, true⟩, ⟨"Beta", true, true⟩], none, none⟩
      true (some "alpha") (some 1) = some ⟨"Beta", true, true⟩ ∧
    strContains (normalize "Beta") (normalize "alpha") = false ∧
    strContains (normalize "Alpha") (normalize "alpha") = true ∧
    deviceOk true ⟨"Alpha", true, true⟩ = true :=
  ⟨by rfl, by rfl, by rfl, by rfl⟩

/-- C6 (amended): the explicit ordinal index takes priority over the name
substring: whenever the index addresses one of the capability-filtered
devices, that device is returned regardless of the name; the name substring
is consulted only when the index matches nothing (or is absent), in which
case resolution behaves exactly as with no index given. -/
theorem pick_device_C6 (host : Host) (wi : Bool) (q : String) (idx : Nat) :
    (idx < (host.devices.filter (deviceOk wi)).length →
      pick_device host wi (some q) (some idx) =
        (host.devices.filter (deviceOk wi))[idx]?) ∧
    ((host.devices.filter (deviceOk wi)).length ≤ idx →
      pick_device host wi (some q) (some idx) =
        pick_device host wi (some q) none) := by
  constructor
  · intro hlt
    have hsome : ∃ d, (host.devices.filter (deviceOk wi))[idx]? = some d := by
      rw [List.getElem?_eq_getElem hlt]
      exact ⟨_, rfl⟩
    obtain ⟨d, hd⟩ := hsome
    simp only [pick_device, pickByIndex_eq, hd]
  · intro hge
    have hnone : (host.devices.filter (deviceOk wi))[idx]? = none :=
      List.getElem?_eq_none hge
    simp only [pick_device, pickByIndex_eq, hnone]

/-- Witness for C6: for the two-device host, index `0` beats the name
`"beta"` (returning `"Alpha"`), while the out-of-range index `7` falls
through to name-based resolution. -/
theorem pick_device_C6_witness :
    (0 < ((([⟨"Alpha", true, true⟩, ⟨"Beta", true, true⟩] : List Device)).filter
        (deviceOk true)).length ∧
      pick_device ⟨[⟨"Alpha", true, true⟩, ⟨"Beta", true, true⟩], none, none⟩
          true (some "beta") (some 0) =
        ((([⟨"Alpha", true, true⟩, ⟨"Beta", true, true⟩] : List Device)).filter
          (deviceOk true))[0]?) ∧
    (((([⟨"Alpha", true, true⟩, ⟨"Beta", true, true⟩] : List Device)).filter
        (deviceOk true)).length ≤ 7 ∧
      pick_device ⟨[⟨"Alpha", true, true⟩, ⟨"Beta", true, true⟩], none, none⟩
          true (some "beta") (some 7) =
        pick_device ⟨[⟨"Alpha", true, true⟩, ⟨"Beta", true, true⟩], none, none⟩
          true (some "beta") none) :=
  ⟨⟨by decide,
    (pick_device_C6 ⟨[⟨"Alpha", true, true⟩, ⟨"Beta", true, true⟩], none, none⟩
      true "beta" 0).1 (by decide)⟩,
   ⟨by decide,
    (pick_device_C6 ⟨[⟨"Alpha", true, true⟩, ⟨"Beta", true, true⟩], none, none⟩
      true "beta" 7).2 (by decide)⟩⟩

/-- C7 counterexample: at internal sample `1/2`, the i16 render path emits
`trunc(0.5 * 32767) = 16383`, while the specification's rule
`round(clamped * 32767.0)` demands `16384`: the code truncates (Rust `as`
cast), it does not round. -/
theorem denorm_rules_C7_counterexample :
    denormI16 (1 / 2) = 16383 ∧ roundHalfAway (rustClamp (1 / 2) * 32767) = 16384 := by
  constructor
  · norm_num [denormI16, rustCastI16, ratTrunc, rustClamp]
  · norm_num [roundHalfAway, rustClamp]

/-- C7 (amended): in the render path, after clamping to `[-1, 1]`, every
emitted signed-16-bit sample equals the truncation toward zero of
`clamped * 32767.0`, every emitted unsigned-16-bit sample equals the
truncation toward zero of `((clamped + 1.0) * 0.5) * 65535.0` (the `as`
casts never saturate on the clamped range), and 32-bit-float output is the
identity conversion. -/
theorem denorm_rules_C7 (v : ℚ) :
    denormI16 v = ratTrunc (rustClamp v * 32767) ∧
    denormU16 v = ratTrunc ((rustClamp v + 1) * (1 / 2) * 65535) ∧
    denormF32 v = v := by
  obtain ⟨hl, hr⟩ := rustClamp_mem v
  refine ⟨?_, ?_, rfl⟩
  · have hx1 : ((-32767 : ℤ) : ℚ) ≤ rustClamp v * 32767 := by push_cast; nlinarith
    have hx2 : rustClamp v * 32767 ≤ ((32767 : ℤ) : ℚ) := by push_cast; nlinarith
    obtain ⟨hb1, hb2⟩ := ratTrunc_mem hx1 hx2 (by norm_num) (by norm_num)
    simp only [denormI16, rustCastI16]
    omega
  · have hx1 : ((0 : ℤ) : ℚ) ≤ (rustClamp v + 1) * (1 / 2) * 65535 := by
      push_cast; nlinarith
    have hx2 : (rustClamp v + 1) * (1 / 2) * 65535 ≤ ((65535 : ℤ) : ℚ) := by
      push_cast; nlinarith
    obtain ⟨hb1, hb2⟩ := ratTrunc_mem hx1 hx2 (by norm_num) (by norm_num)
    simp only [denormU16, rustCastU16]
    omega
/-- C8: gain clipping postcondition.  For every gain setting (the linear
coefficient ranges over all values, covering every `10^(db/20)`) and every
input block, every sample produced by `Gain::process` lies within
`[-1, 1]`, whatever the input magnitude. -/
theorem gain_clip_C8 (g : Gain) (block : List ℚ) :
    ∀ y ∈ g.process block, -1 ≤ y ∧ y ≤ 1 := by
  intro y hy
  simp only [Gain.process, List.mem_map] at hy
  obtain ⟨s, _, rfl⟩ := hy
  split_ifs with h1 h2
  · constructor <;> norm_num
  · constructor <;> norm_num
  · constructor <;> linarith

/-- Witness for C8: a `+6 dB`-style coefficient `2` applied to `[3/5]`
drives the sample to `6/5`, which clips to `1`, inside `[-1, 1]`. -/
theorem gain_clip_C8_witness :
    ((1 : ℚ) ∈ Gain.process ⟨6, 2⟩ [3 / 5]) ∧ (-1 ≤ (1 : ℚ) ∧ (1 : ℚ) ≤ 1) := by
  have hmem : Gain.process ⟨6, 2⟩ [3 / 5] = [1] := by norm_num [Gain.process]
  exact ⟨by rw [hmem]; exact List.mem_singleton.mpr rfl,
    gain_clip_C8 ⟨6, 2⟩ [3 / 5] 1 (by rw [hmem]; exact List.mem_singleton.mpr rfl)⟩

/-- C9: the i16 and u16 render callbacks heap-allocate a temporary
`Vec<f32>` (`vec![0.0f32; out.len()]`) on every invocation with a nonempty
output block — one heap allocation each, on both the underrun path and the
success path — contradicting the claimed (and intended) real-time
no-allocation contract. -/
theorem render_alloc_C9 :
    (renderI16 (SpscRingF32.with_capacity 4) 3).2 = 1 ∧
    (renderU16 (SpscRingF32.with_capacity 4) 3).2 = 1 ∧
    (renderI16 ((SpscRingF32.with_capacity 4).push_slice [1, 2, 3]).2 2).2 = 1 ∧
    (renderU16 ((SpscRingF32.with_capacity 4).push_slice [1, 2, 3]).2 2).2 = 1 :=
  ⟨rfl, rfl, rfl, rfl⟩

/-- C10: zero-length operations are total no-ops: on every ring state —
reachable or not, full or empty — pushing the empty slice succeeds and
changes nothing, and popping into an empty output slice succeeds and
changes nothing. -/
theorem zero_len_noop_C10 (s : SpscRingF32) :
    s.push_slice [] = (true, s) ∧ s.pop_into [] = (true, s, []) := by
  constructor
  · simp only [SpscRingF32.push_slice]
    rw [if_neg (by simp)]
    rfl
  · simp only [SpscRingF32.pop_into]
    rw [if_neg (by simp)]
    rfl

end Bord
